import Mathlib

/-!
Verification of the small_uid-ts core: the base64url codec (src/utils.ts)
and the `SmallUid` class (mod.ts, the immutable variant that uses
`encode`/`decode` from src/utils.ts).

JavaScript strings are modeled as lists of UTF-16 code units (`List Nat`),
which is exactly the view taken by the source through `charCodeAt` and
`String.fromCharCode`.  `bigint` values are modeled as `Int` where a sign
matters (assembly inputs) and as `Nat` elsewhere.
-/

namespace SmallUidTs

/-! ### Digit strings

`BigInt.prototype.toString(radix)` renders the shortest digit string, and
renders `0` as "0".  The fuel argument makes the recursion structural; fuel
`v` is always enough since `v < b ^ v` for `b ≥ 2`. -/

def digitsFuel (b : Nat) : Nat → Nat → List Nat
  | 0, _ => []
  | f + 1, v => if v = 0 then [] else digitsFuel b f (v / b) ++ [v % b]

/-- Digits of `v` in base `b`, most significant first, as `v.toString(b)`. -/
def toStringDigits (b v : Nat) : List Nat :=
  if v = 0 then [0] else digitsFuel b v v

/-- `v.toString(16)` as a list of hex digit values. -/
def hexDigits (v : Nat) : List Nat := toStringDigits 16 v

/-- `v.toString(2).length`, the bit-string length used by `#assemble`. -/
def binLen (v : Nat) : Nat := (toStringDigits 2 v).length

/-! ### toByteString (src/utils.ts)

The source walks the hex string two characters at a time with
`parseInt(hex.slice(i, i + 2), 16)`; when the hex string has odd length the
final slice is a single character, so the last "byte" is a lone nibble. -/

def pairUp : List Nat → List Nat
  | a :: b :: rest => (a * 16 + b) :: pairUp rest
  | [a] => [a]
  | [] => []

def toByteString (v : Nat) : List Nat := pairUp (hexDigits v)

/-! ### btoa / atob (platform base64, forgiving-base64) -/

/-- Standard base64 alphabet: sextet index to character code. -/
def b64code (s : Nat) : Nat :=
  if s < 26 then 65 + s
  else if s < 52 then 97 + (s - 26)
  else if s < 62 then 48 + (s - 52)
  else if s = 62 then 43
  else 47

/-- `btoa`: bytes to base64 character codes, `=` (61) padding included. -/
def btoa : List Nat → List Nat
  | [] => []
  | [b1] => [b64code (b1 / 4), b64code (b1 % 4 * 16), 61, 61]
  | [b1, b2] =>
    [b64code (b1 / 4), b64code (b1 % 4 * 16 + b2 / 16), b64code (b2 % 16 * 4), 61]
  | b1 :: b2 :: b3 :: rest =>
    b64code (b1 / 4) :: b64code (b1 % 4 * 16 + b2 / 16) ::
      b64code (b2 % 16 * 4 + b3 / 64) :: b64code (b3 % 64) :: btoa rest

/-- Inverse alphabet lookup; `none` for characters outside the base64
alphabet (this includes `=`, code 61). -/
def b64decCode (c : Nat) : Option Nat :=
  if 65 ≤ c ∧ c ≤ 90 then some (c - 65)
  else if 97 ≤ c ∧ c ≤ 122 then some (c - 97 + 26)
  else if 48 ≤ c ∧ c ≤ 57 then some (c - 48 + 52)
  else if c = 43 then some 62
  else if c = 47 then some 63
  else none

def decChars : List Nat → Option (List Nat)
  | [] => some []
  | c :: rest =>
    match b64decCode c, decChars rest with
    | some s, some ss => some (s :: ss)
    | _, _ => none

def sextetsToBytes : List Nat → List Nat
  | s1 :: s2 :: s3 :: s4 :: rest =>
    (s1 * 4 + s2 / 16) :: (s2 % 16 * 16 + s3 / 4) :: (s3 % 4 * 64 + s4) ::
      sextetsToBytes rest
  | [s1, s2] => [s1 * 4 + s2 / 16]
  | [s1, s2, s3] => [s1 * 4 + s2 / 16, s2 % 16 * 16 + s3 / 4]
  | _ => []

/-- ASCII whitespace, removed by forgiving-base64. -/
def isWsCode (c : Nat) : Bool :=
  c = 9 || c = 10 || c = 12 || c = 13 || c = 32

/-- Remove up to two trailing `=` (code 61). -/
def stripPad2 (l : List Nat) : List Nat :=
  match l.reverse with
  | 61 :: 61 :: rest => rest.reverse
  | 61 :: rest => rest.reverse
  | _ => l

/-- Forgiving-base64 preprocessing: remove ASCII whitespace, then strip up
to two trailing `=` when the length is a multiple of four. -/
def atobData (s : List Nat) : List Nat :=
  let data := s.filter (fun c => !(isWsCode c))
  if data.length % 4 = 0 then stripPad2 data else data

/-- `atob`: forgiving-base64 decode of character codes to bytes; `none`
models the `InvalidCharacterError` DOMException. -/
def atob (s : List Nat) : Option (List Nat) :=
  let data := atobData s
  if data.length % 4 = 1 then none
  else
    match decChars data with
    | some sextets => some (sextetsToBytes sextets)
    | none => none

/-! ### encode / decode (src/utils.ts) -/

/-- The `+` to `-` and `/` to `_` substitution applied after `btoa`. -/
def urlSubst (c : Nat) : Nat :=
  if c = 43 then 45 else if c = 47 then 95 else c

/-- Strip the trailing run of `=` (the `/=+$/` replacement). -/
def rstripEq (l : List Nat) : List Nat :=
  (l.reverse.dropWhile (fun c => c == 61)).reverse

/-- `encode` from src/utils.ts: hex-derived byte string, `btoa`, base64url
substitution, strip trailing padding. -/
def encode (v : Nat) : List Nat :=
  rstripEq ((btoa (toByteString v)).map urlSubst)

/-- The `-` to `+` and `_` to `/` normalization in `decode`. -/
def normalizeCode (c : Nat) : Nat :=
  if c = 45 then 43 else if c = 95 then 47 else c

/-- `decode` from src/utils.ts: normalize, `atob`, fold the bytes
big-endian (`result = (result << 8n) | BigInt(bytes[i])`, the bytes having
passed through a `Uint8Array`). -/
def decode (s : List Nat) : Option Nat :=
  (atob (s.map normalizeCode)).map
    (fun bytes => bytes.foldl (fun acc b => (acc <<< 8) ||| (b % 256)) 0)

/-- `escapeUrl` from mod.ts: `+` to `-`, `/` to `_`, strip trailing `=`. -/
def escapeUrl (s : List Nat) : List Nat := rstripEq (s.map urlSubst)

/-! ### String bridges for theorem statements -/

def codesOf (s : String) : List Nat := s.data.map Char.toNat

def strOf (l : List Nat) : String := String.mk (l.map Char.ofNat)

def escapeUrlStr (s : String) : String := strOf (escapeUrl (codesOf s))

/-! ### The SmallUid class (mod.ts, immutable variant) -/

namespace SmallUid

inductive Err where
  | negativeInput
  | invalidEncoding
  | atobInvalidCharacter
  deriving DecidableEq

/-- `#MAX`: sixty-four 1 bits. -/
def MAX : Nat := 2 ^ 64 - 1

/-- `#RIGHT20`: twenty 1 bits. -/
def RIGHT20 : Nat := 2 ^ 20 - 1

/-- `#filterValue`, applied by the constructor to `bigint` input. -/
def filterValue (value : Nat) : Nat := value &&& MAX

/-- The random-truncation block of `#assemble`, keyed on
`random.toString(2).length`. -/
def truncRandom (random : Nat) : Nat :=
  if binLen random > 20 then
    if binLen random > 64 then (random &&& MAX) >>> 44 else random >>> 44
  else random

/-- `#assemble`: reject negative inputs, then `(timestamp << 20n) | random`
with the oversized random first truncated. -/
def assemble (timestamp random : Int) : Except Err Nat :=
  if timestamp < 0 ∨ random < 0 then .error .negativeInput
  else .ok ((timestamp.toNat <<< 20) ||| truncRandom random.toNat)

/-- `fromParts`: `#assemble`, then the constructor masks via
`#filterValue`. -/
def fromParts (timestamp random : Int) : Except Err Nat :=
  (assemble timestamp random).map filterValue

/-- `gen`: the clock output (`Date.now()`) and the RNG output
(`generate()`) are the two black-box inputs of the embedding. -/
def gen (nowMillis rngOut : Nat) : Except Err Nat :=
  (assemble (nowMillis : Int) (rngOut : Int)).map filterValue

/-- `fromTimestamp`: caller timestamp, RNG output as the random part. -/
def fromTimestamp (timestamp : Int) (rngOut : Nat) : Except Err Nat :=
  (assemble timestamp (rngOut : Int)).map filterValue

/-- `fromRandom`: clock output as the timestamp, caller random part. -/
def fromRandom (nowMillis : Nat) (random : Int) : Except Err Nat :=
  (assemble (nowMillis : Int) random).map filterValue

/-- The `timestamp` getter: `value >> 20n`. -/
def timestamp (value : Nat) : Nat := value >>> 20

/-- The `random` getter: `value & RIGHT20`. -/
def random (value : Nat) : Nat := value &&& RIGHT20

/-- The `string` getter: `encode(value)`. -/
def string (value : Nat) : List Nat := encode value

/-- The character class of the regex `^[A-Za-z0-9\-_]+$`. -/
def isB64UrlCode (c : Nat) : Bool :=
  decide ((65 ≤ c ∧ c ≤ 90) ∨ (97 ≤ c ∧ c ≤ 122) ∨ (48 ≤ c ∧ c ≤ 57) ∨
    c = 45 ∨ c = 95)

/-- `#stringToValue`: slice the input to its first ten characters, test the
slice against `^[A-Za-z0-9\-_]+$`, then `decode` the slice. -/
def stringToValue (s : List Nat) : Except Err Nat :=
  let encoded := s.take 10
  if encoded ≠ [] ∧ encoded.all isB64UrlCode then
    match decode encoded with
    | some v => .ok v
    | none => .error .atobInvalidCharacter
  else .error .invalidEncoding

/-- Constructing `new SmallUid(input)` from a string. -/
def ofString (s : String) : Except Err Nat := stringToValue (codesOf s)

end SmallUid

/-! ### Lengths of digit strings -/

theorem digitsFuel_length {b : Nat} (hb : 2 ≤ b) :
    ∀ f v, v < b ^ f →
      (digitsFuel b f v).length = if v = 0 then 0 else Nat.log b v + 1 := by
  intro f
  induction f with
  | zero =>
    intro v hv
    rw [pow_zero, Nat.lt_one_iff] at hv
    subst hv
    simp [digitsFuel]
  | succ f ih =>
    intro v hv
    by_cases h0 : v = 0
    · subst h0; simp [digitsFuel]
    · have hdiv : v / b < b ^ f := by
        rw [Nat.div_lt_iff_lt_mul (by omega)]
        calc v < b ^ (f + 1) := hv
          _ = b ^ f * b := by rw [pow_succ]
      rw [digitsFuel, if_neg h0, List.length_append, ih _ hdiv]
      by_cases hvb : v < b
      · rw [Nat.div_eq_of_lt hvb]
        simp [Nat.log_of_lt hvb, h0]
      · have hbv : b ≤ v := le_of_not_lt hvb
        have hne : v / b ≠ 0 := by
          have h1 : 1 ≤ v / b := (Nat.one_le_div_iff (by omega)).mpr hbv
          omega
        rw [if_neg hne, Nat.log_div_base, if_neg h0]
        have hpos : 0 < Nat.log b v := Nat.log_pos (by omega) hbv
        simp only [List.length_cons, List.length_nil]
        omega

theorem toStringDigits_length {b : Nat} (hb : 2 ≤ b) (v : Nat) :
    (toStringDigits b v).length = if v = 0 then 1 else Nat.log b v + 1 := by
  unfold toStringDigits
  by_cases h0 : v = 0
  · simp [h0]
  · rw [if_neg h0, if_neg h0,
      digitsFuel_length hb v v (Nat.lt_pow_self (by omega) v), if_neg h0]

theorem binLen_le_iff {k r : Nat} (hk : 1 ≤ k) : binLen r ≤ k ↔ r < 2 ^ k := by
  unfold binLen
  rw [toStringDigits_length (by norm_num)]
  by_cases h0 : r = 0
  · simp [h0, hk, Nat.pos_pow_of_pos]
  · rw [if_neg h0]
    rw [Nat.lt_pow_iff_log_lt (by norm_num) h0]
    omega

theorem pairUp_length (l : List Nat) : (pairUp l).length = (l.length + 1) / 2 := by
  match l with
  | [] => rfl
  | [a] => simp [pairUp]
  | a :: b :: rest =>
    simp only [pairUp, List.length_cons, pairUp_length rest]
    omega

/-! ### Facts about the SmallUid masks and truncation -/

namespace SmallUid

theorem and_MAX_eq (v : Nat) : v &&& MAX = v % 2 ^ 64 := by
  unfold MAX
  exact Nat.and_pow_two_sub_one_eq_mod v 64

theorem and_RIGHT20_eq (v : Nat) : v &&& RIGHT20 = v % 2 ^ 20 := by
  unfold RIGHT20
  exact Nat.and_pow_two_sub_one_eq_mod v 20

theorem filterValue_eq (v : Nat) : filterValue v = v % 2 ^ 64 :=
  and_MAX_eq v

theorem truncRandom_of_lt {r : Nat} (h : r < 2 ^ 20) : truncRandom r = r := by
  unfold truncRandom
  rw [if_neg]
  have := (binLen_le_iff (k := 20) (by norm_num)).mpr h
  omega

theorem truncRandom_of_mid {r : Nat} (h1 : 2 ^ 20 ≤ r) (h2 : r < 2 ^ 64) :
    truncRandom r = r >>> 44 := by
  have hgt : ¬ binLen r ≤ 20 := fun hc =>
    absurd ((binLen_le_iff (by norm_num)).mp hc) (by omega)
  have hle : binLen r ≤ 64 := (binLen_le_iff (by norm_num)).mpr h2
  unfold truncRandom
  rw [if_pos (by omega), if_neg (by omega)]

theorem truncRandom_of_big {r : Nat} (h : 2 ^ 64 ≤ r) :
    truncRandom r = (r &&& MAX) >>> 44 := by
  have hgt : ¬ binLen r ≤ 64 := fun hc =>
    absurd ((binLen_le_iff (by norm_num)).mp hc) (by omega)
  unfold truncRandom
  rw [if_pos (by omega), if_pos (by omega)]

theorem truncRandom_lt (r : Nat) : truncRandom r < 2 ^ 20 := by
  rcases lt_or_le r (2 ^ 20) with h | h1
  · rw [truncRandom_of_lt h]; exact h
  rcases lt_or_le r (2 ^ 64) with h2 | h2
  · rw [truncRandom_of_mid h1 h2, Nat.shiftRight_eq_div_pow,
      Nat.div_lt_iff_lt_mul (by norm_num)]
    calc r < 2 ^ 64 := h2
      _ = 2 ^ 20 * 2 ^ 44 := by norm_num
  · rw [truncRandom_of_big h2, and_MAX_eq, Nat.shiftRight_eq_div_pow,
      Nat.div_lt_iff_lt_mul (by norm_num)]
    calc r % 2 ^ 64 < 2 ^ 64 := Nat.mod_lt _ (by norm_num)
      _ = 2 ^ 20 * 2 ^ 44 := by norm_num

/-- With an in-range random part, the packed value splits additively. -/
theorem shl20_or_eq {t r : Nat} (hr : r < 2 ^ 20) :
    (t <<< 20) ||| r = 2 ^ 20 * t + r := by
  rw [Nat.shiftLeft_eq, Nat.mul_comm]
  exact (Nat.mul_add_lt_is_or hr t).symm

end SmallUid

/-! ### Length of the encoded text -/

theorem urlSubst_b64code_ne (s : Nat) : urlSubst (b64code s) ≠ 61 := by
  unfold urlSubst b64code
  split_ifs <;> omega

theorem rstripEq_snoc_ne {l : List Nat} {c : Nat} (h : c ≠ 61) :
    rstripEq (l ++ [c]) = l ++ [c] := by
  unfold rstripEq
  rw [List.reverse_append]
  have hc : (c == 61) = false := beq_eq_false_iff_ne.mpr h
  simp [List.dropWhile, hc]

theorem rstripEq_snoc_eq (l : List Nat) : rstripEq (l ++ [61]) = rstripEq l := by
  unfold rstripEq
  rw [List.reverse_append]
  simp [List.dropWhile]

theorem rstrip_btoa_length_of_eight {l : List Nat} (h : l.length = 8) :
    (btoa l).length = 12 ∧ (rstripEq ((btoa l).map urlSubst)).length = 11 := by
  obtain ⟨b1, b2, b3, b4, b5, b6, b7, b8, rfl⟩ :
      ∃ b1 b2 b3 b4 b5 b6 b7 b8, l = [b1, b2, b3, b4, b5, b6, b7, b8] := by
    rcases l with _ | ⟨b1, _ | ⟨b2, _ | ⟨b3, _ | ⟨b4, _ | ⟨b5, _ |
      ⟨b6, _ | ⟨b7, _ | ⟨b8, _ | ⟨b9, t⟩⟩⟩⟩⟩⟩⟩⟩⟩ <;>
      first
        | exact ⟨_, _, _, _, _, _, _, _, rfl⟩
        | simp at h
  have hb : (btoa [b1, b2, b3, b4, b5, b6, b7, b8]).map urlSubst
      = (([urlSubst (b64code (b1 / 4)), urlSubst (b64code (b1 % 4 * 16 + b2 / 16)),
          urlSubst (b64code (b2 % 16 * 4 + b3 / 64)), urlSubst (b64code (b3 % 64)),
          urlSubst (b64code (b4 / 4)), urlSubst (b64code (b4 % 4 * 16 + b5 / 16)),
          urlSubst (b64code (b5 % 16 * 4 + b6 / 64)), urlSubst (b64code (b6 % 64)),
          urlSubst (b64code (b7 / 4)), urlSubst (b64code (b7 % 4 * 16 + b8 / 16))]
          ++ [urlSubst (b64code (b8 % 16 * 4))]) ++ [61]) := rfl
  constructor
  · have := congrArg List.length hb
    simpa using this
  · rw [hb, rstripEq_snoc_eq, rstripEq_snoc_ne (urlSubst_b64code_ne _)]
    simp

theorem toByteString_length_eight {v : Nat} (h1 : 2 ^ 56 ≤ v) (h2 : v < 2 ^ 64) :
    (toByteString v).length = 8 := by
  have hp : (0 : Nat) < 2 ^ 56 := by positivity
  have h0 : v ≠ 0 := by omega
  unfold toByteString hexDigits
  rw [pairUp_length, toStringDigits_length (by norm_num), if_neg h0]
  have hlo : 14 ≤ Nat.log 16 v := by
    have h14 : (16 : Nat) ^ 14 ≤ v := by
      calc (16 : Nat) ^ 14 = 2 ^ 56 := by norm_num
        _ ≤ v := h1
    exact (Nat.pow_le_iff_le_log (by norm_num) h0).mp h14
  have hhi : Nat.log 16 v < 16 := by
    apply Nat.log_lt_of_lt_pow h0
    calc v < 2 ^ 64 := h2
      _ = 16 ^ 16 := by norm_num
  omega

/-! ### Behaviour of decode on regex-validated input -/

namespace SmallUid

theorem normalizeCode_not_ws {c : Nat} (h : isB64UrlCode c = true) :
    isWsCode (normalizeCode c) = false := by
  simp only [isB64UrlCode, decide_eq_true_eq] at h
  unfold normalizeCode isWsCode
  split_ifs <;> (simp only [Bool.or_eq_false_iff, decide_eq_false_iff_not]; omega)

theorem normalizeCode_ne_61 {c : Nat} (h : isB64UrlCode c = true) :
    normalizeCode c ≠ 61 := by
  simp only [isB64UrlCode, decide_eq_true_eq] at h
  unfold normalizeCode
  split_ifs <;> omega

theorem b64decCode_normalizeCode_isSome {c : Nat} (h : isB64UrlCode c = true) :
    (b64decCode (normalizeCode c)).isSome := by
  simp only [isB64UrlCode, decide_eq_true_eq] at h
  unfold normalizeCode b64decCode
  split_ifs <;> simp <;> omega

theorem decChars_isSome :
    ∀ {l : List Nat}, (∀ c ∈ l, (b64decCode c).isSome) →
      ∃ ss, decChars l = some ss := by
  intro l
  induction l with
  | nil => exact fun _ => ⟨[], rfl⟩
  | cons c rest ih =>
    intro h
    obtain ⟨s, hs⟩ := Option.isSome_iff_exists.mp (h c (by simp))
    obtain ⟨ss, hss⟩ := ih fun x hx => h x (by simp [hx])
    exact ⟨s :: ss, by simp [decChars, hs, hss]⟩

theorem stripPad2_of_ne {l : List Nat} (h : ∀ c ∈ l, c ≠ 61) :
    stripPad2 l = l := by
  unfold stripPad2
  split
  · next rest heq =>
    exfalso
    have hm : (61 : Nat) ∈ l.reverse := by rw [heq]; simp
    exact h 61 (List.mem_reverse.mp hm) rfl
  · next rest heq =>
    exfalso
    have hm : (61 : Nat) ∈ l.reverse := by rw [heq]; simp
    exact h 61 (List.mem_reverse.mp hm) rfl
  · rfl

theorem atobData_of_valid {l : List Nat}
    (hv : ∀ c ∈ l, isB64UrlCode c = true) :
    atobData (l.map normalizeCode) = l.map normalizeCode := by
  have hfilter :
      (l.map normalizeCode).filter (fun c => !(isWsCode c)) =
        l.map normalizeCode := by
    rw [List.filter_eq_self]
    intro a ha
    obtain ⟨c, hc, rfl⟩ := List.mem_map.mp ha
    simp [normalizeCode_not_ws (hv c hc)]
  have hstrip : stripPad2 (l.map normalizeCode) = l.map normalizeCode := by
    apply stripPad2_of_ne
    intro a ha
    obtain ⟨c, hc, rfl⟩ := List.mem_map.mp ha
    exact normalizeCode_ne_61 (hv c hc)
  unfold atobData
  simp only [hfilter]
  split_ifs <;> simp [hstrip]

theorem decode_none_of_len_one {l : List Nat}
    (hv : ∀ c ∈ l, isB64UrlCode c = true) (h1 : l.length % 4 = 1) :
    decode l = none := by
  unfold decode atob
  simp only [atobData_of_valid hv, List.length_map]
  rw [if_pos h1]
  rfl

theorem decode_some_of_len_ne_one {l : List Nat}
    (hv : ∀ c ∈ l, isB64UrlCode c = true) (h1 : l.length % 4 ≠ 1) :
    ∃ v, decode l = some v := by
  have hval : ∀ a ∈ l.map normalizeCode, (b64decCode a).isSome := by
    intro a ha
    obtain ⟨c, hc, rfl⟩ := List.mem_map.mp ha
    exact b64decCode_normalizeCode_isSome (hv c hc)
  obtain ⟨ss, hss⟩ := decChars_isSome hval
  refine ⟨(sextetsToBytes ss).foldl (fun acc b => (acc <<< 8) ||| (b % 256)) 0, ?_⟩
  unfold decode atob
  simp only [atobData_of_valid hv, List.length_map]
  rw [if_neg h1, hss]
  rfl

end SmallUid

/-! ## Claims -/

/-- C1: the codec round-trip `decode(encode(v)) == v` fails on the code.
At `v = 256` the hex string "100" has odd length, so `toByteString` turns
the final lone nibble into a full byte and the decoder reads back 4096. -/
theorem C1_roundtrip_fails_at_256 :
    decode (encode 256) = some 4096 ∧ (4096 : Nat) ≠ 256 :=
  ⟨rfl, by decide⟩

/-- C2: with clock output `2^40` ms and RNG output `0`, `gen` yields the
value `2^60`, but constructing a `SmallUid` from its text form decodes only
the first ten of the eleven characters and yields `2^52`, not `2^60`. -/
theorem C2_text_roundtrip_fails :
    SmallUid.gen (2 ^ 40) 0 = Except.ok (2 ^ 60) ∧
      SmallUid.stringToValue (SmallUid.string (2 ^ 60)) = Except.ok (2 ^ 52) ∧
      (2 ^ 52 : Nat) ≠ 2 ^ 60 :=
  ⟨rfl, rfl, by decide⟩

/-- C3 counterexample: `encode` is not fixed-width eight bytes; `encode 0`
is the two-character text "AA", not an 11-character text. -/
theorem C3_cex_encode_zero :
    encode 0 = codesOf ("AA") ∧ (encode 0).length ≠ 11 :=
  ⟨rfl, by decide⟩

/-- C3 (amended): `encode` serializes the shortest hex-derived byte string,
so exactly the values with at least 15 hex digits (`v ≥ 2^56`, eight bytes)
give the stated fixed lengths: 12 base64 characters with padding and 11
after stripping. -/
theorem C3_full_values_encode_to_eleven_chars {v : Nat}
    (h1 : 2 ^ 56 ≤ v) (h2 : v < 2 ^ 64) :
    (btoa (toByteString v)).length = 12 ∧ (encode v).length = 11 :=
  rstrip_btoa_length_of_eight (toByteString_length_eight h1 h2)

/-- C3 witness at `v = 2^56`. -/
theorem C3_full_values_encode_witness :
    (2 ^ 56 : Nat) ≤ 2 ^ 56 ∧ (2 ^ 56 : Nat) < 2 ^ 64 ∧
      ((btoa (toByteString (2 ^ 56))).length = 12 ∧
        (encode (2 ^ 56)).length = 11) :=
  ⟨le_refl _, by norm_num,
    C3_full_values_encode_to_eleven_chars (le_refl _) (by norm_num)⟩

/-- C4 counterexample: the constructor validates only `string.slice(0,10)`,
so the out-of-alphabet `+` in position 11 of "AAAAAAAAAA+" is never seen
and construction succeeds; and a trailing `=` is not tolerated ("AA==" is
rejected).  Both contradict the claim. -/
theorem C4_cex_validation_skips_tail :
    SmallUid.ofString ("AAAAAAAAAA+") = Except.ok 0 ∧
      SmallUid.ofString ("AA==") = Except.error SmallUid.Err.invalidEncoding :=
  ⟨rfl, rfl⟩

/-- C4 (amended): construction from text validates only the first
`min(10, length)` characters.  It fails with `InvalidEncoding` exactly when
that prefix is empty or contains a character outside `[A-Za-z0-9_-]`
(`=` included); it succeeds exactly when the prefix is nonempty, all-valid
and of length not `≡ 1 (mod 4)`; otherwise it fails with `atob`'s
`InvalidCharacter` error.  Characters beyond the prefix are ignored, and no
partial result is produced. -/
theorem C4_stringToValue_validates_first_ten (s : List Nat) :
    (SmallUid.stringToValue s = Except.error SmallUid.Err.invalidEncoding ↔
      s.take 10 = [] ∨ ∃ c ∈ s.take 10, SmallUid.isB64UrlCode c = false) ∧
    ((∃ v, SmallUid.stringToValue s = Except.ok v) ↔
      s.take 10 ≠ [] ∧ (∀ c ∈ s.take 10, SmallUid.isB64UrlCode c = true) ∧
        (s.take 10).length % 4 ≠ 1) ∧
    (SmallUid.stringToValue s =
        Except.error SmallUid.Err.atobInvalidCharacter ↔
      s.take 10 ≠ [] ∧ (∀ c ∈ s.take 10, SmallUid.isB64UrlCode c = true) ∧
        (s.take 10).length % 4 = 1) := by
  by_cases hne : s.take 10 = []
  · have hval : SmallUid.stringToValue s =
        Except.error SmallUid.Err.invalidEncoding := by
      simp only [SmallUid.stringToValue]
      rw [if_neg]
      rintro ⟨h1, _⟩
      exact h1 hne
    rw [hval]
    exact ⟨⟨fun _ => Or.inl hne, fun _ => rfl⟩,
      ⟨fun ⟨v, h⟩ => absurd h (by simp), fun ⟨hne', _⟩ => absurd hne hne'⟩,
      ⟨fun h => absurd h (by simp), fun ⟨hne', _⟩ => absurd hne hne'⟩⟩
  · by_cases hall : ∀ c ∈ s.take 10, SmallUid.isB64UrlCode c = true
    · have hnex : ¬ ∃ c ∈ s.take 10, SmallUid.isB64UrlCode c = false := by
        rintro ⟨c, hc, hf⟩
        rw [hall c hc] at hf
        exact Bool.noConfusion hf
      by_cases hlen : (s.take 10).length % 4 = 1
      · have hval : SmallUid.stringToValue s =
            Except.error SmallUid.Err.atobInvalidCharacter := by
          simp only [SmallUid.stringToValue]
          rw [if_pos ⟨hne, List.all_eq_true.mpr hall⟩,
            SmallUid.decode_none_of_len_one hall hlen]
        rw [hval]
        refine ⟨⟨fun h => absurd h (by simp), fun h => ?_⟩,
          ⟨fun ⟨v, h⟩ => absurd h (by simp), fun ⟨_, _, hlen'⟩ => absurd hlen hlen'⟩,
          ⟨fun _ => ⟨hne, hall, hlen⟩, fun _ => rfl⟩⟩
        rcases h with h | h
        · exact absurd h hne
        · exact absurd h hnex
      · obtain ⟨v, hv⟩ := SmallUid.decode_some_of_len_ne_one hall hlen
        have hval : SmallUid.stringToValue s = Except.ok v := by
          simp only [SmallUid.stringToValue]
          rw [if_pos ⟨hne, List.all_eq_true.mpr hall⟩, hv]
        rw [hval]
        refine ⟨⟨fun h => absurd h (by simp), fun h => ?_⟩,
          ⟨fun _ => ⟨hne, hall, hlen⟩, fun _ => ⟨v, rfl⟩⟩,
          ⟨fun h => absurd h (by simp), fun ⟨_, _, hlen'⟩ => absurd hlen' hlen⟩⟩
        rcases h with h | h
        · exact absurd h hne
        · exact absurd h hnex
    · have hcond :
          ¬((s.take 10 ≠ []) ∧ (s.take 10).all SmallUid.isB64UrlCode) := by
        rintro ⟨_, h2⟩
        exact hall (List.all_eq_true.mp h2)
      have hval : SmallUid.stringToValue s =
          Except.error SmallUid.Err.invalidEncoding := by
        simp only [SmallUid.stringToValue]
        rw [if_neg hcond]
      have hex : ∃ c ∈ s.take 10, SmallUid.isB64UrlCode c = false := by
        push_neg at hall
        obtain ⟨c, hc, hf⟩ := hall
        exact ⟨c, hc, by simpa using hf⟩
      rw [hval]
      exact ⟨⟨fun _ => Or.inr hex, fun _ => rfl⟩,
        ⟨fun ⟨v, h⟩ => absurd h (by simp), fun ⟨_, hall', _⟩ => absurd hall' hall⟩,
        ⟨fun h => absurd h (by simp), fun ⟨_, hall', _⟩ => absurd hall' hall⟩⟩

/-- C4 witness: the repository's own invalid-text example fails inside the
validated prefix. -/
theorem C4_validation_witness :
    SmallUid.stringToValue (codesOf ("GTQFg4x+VYo")) =
      Except.error SmallUid.Err.invalidEncoding :=
  (C4_stringToValue_validates_first_ten _).1.mpr
    (Or.inr ⟨43, by decide, by decide⟩)

/-- C5: for timestamps in `[0, 2^44)` and randoms in `[0, 2^20)`,
`fromParts` succeeds and the `timestamp` and `random` getters recover both
parts. -/
theorem C5_fromParts_getters_roundtrip (t r : Int)
    (ht0 : 0 ≤ t) (ht : t < 2 ^ 44) (hr0 : 0 ≤ r) (hr : r < 2 ^ 20) :
    ∃ v, SmallUid.fromParts t r = Except.ok v ∧
      SmallUid.timestamp v = t.toNat ∧ SmallUid.random v = r.toNat := by
  have hneg : ¬(t < 0 ∨ r < 0) := by omega
  have htn : t.toNat < 2 ^ 44 := by omega
  have hrn : r.toNat < 2 ^ 20 := by omega
  refine ⟨2 ^ 20 * t.toNat + r.toNat, ?_, ?_, ?_⟩
  · unfold SmallUid.fromParts SmallUid.assemble
    rw [if_neg hneg]
    simp only [Except.map]
    rw [SmallUid.truncRandom_of_lt hrn, SmallUid.shl20_or_eq hrn,
      SmallUid.filterValue_eq, Nat.mod_eq_of_lt]
    have h64 : (2 : Nat) ^ 64 = 2 ^ 20 * 2 ^ 44 := by norm_num
    rw [h64]
    calc 2 ^ 20 * t.toNat + r.toNat
        < 2 ^ 20 * t.toNat + 2 ^ 20 := by omega
      _ = 2 ^ 20 * (t.toNat + 1) := by ring
      _ ≤ 2 ^ 20 * 2 ^ 44 := by
          have : t.toNat + 1 ≤ 2 ^ 44 := htn
          exact Nat.mul_le_mul_left _ this
  · unfold SmallUid.timestamp
    rw [Nat.shiftRight_eq_div_pow, Nat.mul_add_div (by positivity),
      Nat.div_eq_of_lt hrn, Nat.add_zero]
  · unfold SmallUid.random
    rw [SmallUid.and_RIGHT20_eq, Nat.mul_add_mod, Nat.mod_eq_of_lt hrn]

/-- C5 witness at `timestamp = 3`, `random = 5`. -/
theorem C5_fromParts_witness :
    (0 : Int) ≤ 3 ∧ (3 : Int) < 2 ^ 44 ∧ (0 : Int) ≤ 5 ∧ (5 : Int) < 2 ^ 20 ∧
      ∃ v, SmallUid.fromParts 3 5 = Except.ok v ∧
        SmallUid.timestamp v = (3 : Int).toNat ∧
        SmallUid.random v = (5 : Int).toNat :=
  ⟨by norm_num, by norm_num, by norm_num, by norm_num,
    C5_fromParts_getters_roundtrip 3 5 (by norm_num) (by norm_num)
      (by norm_num) (by norm_num)⟩

/-- C6: the truncation of the random part follows the three bit-length
cases of the claim (`> 64` bits: mask to 64 bits then shift right 44 to
keep the top 20 bits of the masked value; 21 to 64 bits: shift right 44
with no pre-mask; at most 20 bits: unchanged), and in every case the
resulting suffix fits in 20 bits. -/
theorem C6_truncation_rule (r : Nat) :
    (2 ^ 64 ≤ r → SmallUid.truncRandom r = r % 2 ^ 64 / 2 ^ 44) ∧
    (2 ^ 20 ≤ r → r < 2 ^ 64 → SmallUid.truncRandom r = r / 2 ^ 44) ∧
    (r < 2 ^ 20 → SmallUid.truncRandom r = r) ∧
    SmallUid.truncRandom r < 2 ^ 20 := by
  refine ⟨?_, ?_, ?_, SmallUid.truncRandom_lt r⟩
  · intro h
    rw [SmallUid.truncRandom_of_big h, SmallUid.and_MAX_eq,
      Nat.shiftRight_eq_div_pow]
  · intro h1 h2
    rw [SmallUid.truncRandom_of_mid h1 h2, Nat.shiftRight_eq_div_pow]
  · exact SmallUid.truncRandom_of_lt

/-- C6 witness at the spec's giant random `2^84 - 1`. -/
theorem C6_truncation_witness :
    2 ^ 64 ≤ 2 ^ 84 - 1 ∧
      SmallUid.truncRandom (2 ^ 84 - 1) = (2 ^ 84 - 1) % 2 ^ 64 / 2 ^ 44 :=
  ⟨by norm_num, (C6_truncation_rule _).1 (by norm_num)⟩

/-- C7: assembly fails with `NegativeInput` exactly when the timestamp or
the random argument is negative; in particular `fromTimestamp(-1)` and
`fromRandom(-1)` fail regardless of the RNG or clock output, and no value
is produced on failure. -/
theorem C7_negative_rejection (t r : Int) (now rng : Nat) :
    (SmallUid.assemble t r = Except.error SmallUid.Err.negativeInput ↔
      t < 0 ∨ r < 0) ∧
    (SmallUid.fromParts t r = Except.error SmallUid.Err.negativeInput ↔
      t < 0 ∨ r < 0) ∧
    SmallUid.fromTimestamp (-1) rng =
      Except.error SmallUid.Err.negativeInput ∧
    SmallUid.fromRandom now (-1) =
      Except.error SmallUid.Err.negativeInput := by
  refine ⟨?_, ?_, ?_, ?_⟩
  · unfold SmallUid.assemble
    split_ifs with h
    · simp [h]
    · simp [h]
  · unfold SmallUid.fromParts SmallUid.assemble
    split_ifs with h
    · simp [h, Except.map]
    · simp [h, Except.map]
  · unfold SmallUid.fromTimestamp SmallUid.assemble
    rw [if_pos (Or.inl (by norm_num))]
    rfl
  · unfold SmallUid.fromRandom SmallUid.assemble
    rw [if_pos (Or.inr (by norm_num))]
    rfl

/-- C7 witness at `fromTimestamp(-1)` and `fromRandom(-1)`. -/
theorem C7_negative_rejection_witness :
    SmallUid.fromTimestamp (-1) 0 =
        Except.error SmallUid.Err.negativeInput ∧
      SmallUid.fromRandom 0 (-1) =
        Except.error SmallUid.Err.negativeInput :=
  ⟨(C7_negative_rejection 0 0 0 0).2.2.1, (C7_negative_rejection 0 0 0 0).2.2.2⟩

/-- C8: for every non-negative timestamp (oversized ones included, which do
not error under the masking policy) and every non-negative random,
construction succeeds and the constructed value is the 64-bit-masked pack,
hence lies in `[0, 2^64)`. -/
theorem C8_masking_invariant (t r : Int) (ht : 0 ≤ t) (hr : 0 ≤ r) :
    ∃ v, SmallUid.fromParts t r = Except.ok v ∧ v < 2 ^ 64 ∧
      (r < 2 ^ 20 → v = ((t.toNat <<< 20) ||| r.toNat) % 2 ^ 64) := by
  have hneg : ¬(t < 0 ∨ r < 0) := by omega
  refine ⟨SmallUid.filterValue
    ((t.toNat <<< 20) ||| SmallUid.truncRandom r.toNat), ?_, ?_, ?_⟩
  · unfold SmallUid.fromParts SmallUid.assemble
    rw [if_neg hneg]
    rfl
  · rw [SmallUid.filterValue_eq]
    exact Nat.mod_lt _ (by positivity)
  · intro hrlt
    have hrn : r.toNat < 2 ^ 20 := by omega
    rw [SmallUid.truncRandom_of_lt hrn, SmallUid.filterValue_eq]

/-- C8 witness at the giant timestamp `2^84 - 1` (no overflow error). -/
theorem C8_masking_witness :
    (0 : Int) ≤ 2 ^ 84 - 1 ∧ (0 : Int) ≤ 5 ∧
      ∃ v, SmallUid.fromParts (2 ^ 84 - 1) 5 = Except.ok v ∧ v < 2 ^ 64 ∧
        ((5 : Int) < 2 ^ 20 →
          v = (((2 ^ 84 - 1 : Int)).toNat <<< 20 ||| (5 : Int).toNat) % 2 ^ 64) :=
  ⟨by norm_num, by norm_num,
    C8_masking_invariant (2 ^ 84 - 1) 5 (by norm_num) (by norm_num)⟩

/-- C9: `escapeUrl` substitutes `+` with `-` and `/` with `_` and strips
the trailing `=` padding, as on the example from the repository's tests. -/
theorem C9_escapeUrl_example : escapeUrlStr ("PDw/Pz8+Pg==") = "PDw_Pz8-Pg" :=
  rfl

end SmallUidTs
